import Mathlib

/-!
Verification of `build_tools/analysis/bazel_utils.py`.

The module parses a Build Event Protocol (BEP) log (one JSON object per
line), extracts aggregate build metrics, reports failed targets and slow
actions, and computes the set of targets affected by a changed-file set.
Each Python function is embedded as an executable Lean definition; the
external Bazel query engine is passed in as an explicit oracle.
-/

namespace BazelUtils

/-- Aggregate counters over one build-event stream; mirrors the Python
dataclass `BuildMetrics`. -/
structure BuildMetrics where
  total_targets : Nat
  successful_targets : Nat
  failed_targets : Nat
  total_time_ms : Int
  action_count : Nat
  cache_hits : Nat
  remote_cache_hits : Nat
  deriving Repr, DecidableEq

/-- The `finished` sub-object of a BEP event: both timestamp fields are
optional JSON keys. -/
structure FinishedEv where
  finishTimeMillis : Option Int
  startTimeMillis : Option Int
  deriving Repr, DecidableEq

/-- The `actionMetrics` sub-object of an `action` event; the
`executionTimeInMs` key is optional (the code reads it with default 0). -/
structure ActionMetricsEv where
  executionTimeInMs : Option Int
  deriving Repr, DecidableEq

/-- The `action` sub-object of a BEP event. `primaryOutputUri` models
`action.get('primaryOutput', {}).get('uri', '')`: `none` when either key
is absent (the code then uses the empty string). -/
structure ActionEv where
  type : Option String
  primaryOutputUri : Option String
  label : Option String
  actionMetrics : Option ActionMetricsEv
  deriving Repr, DecidableEq

/-- One parsed BEP event (a JSON object). Presence of the top-level keys
the code inspects is modelled by `Bool`/`Option` fields:
`configured` is key presence (the value is never read); `completed` is
`some s` when the key is present, `s` being the truthiness of
`completed.get('success')`; `idTargetCompleted` is `some lbl` when both
`id` and `id.targetCompleted` are present, `lbl` being
`targetCompleted.get('label')`. -/
structure Event where
  configured : Bool
  completed : Option Bool
  action : Option ActionEv
  finished : Option FinishedEv
  aborted : Bool
  idTargetCompleted : Option (Option String)
  deriving Repr, DecidableEq

/-- One loop iteration of `BEPAnalyzer.extract_metrics`: the seven local
counters are updated independently from the current event, exactly as the
Python loop body does. -/
def stepMetrics (m : BuildMetrics) (e : Event) : BuildMetrics where
  total_targets := m.total_targets + (if e.configured then 1 else 0)
  successful_targets := m.successful_targets +
    (match e.completed with
     | some s => if s then 1 else 0
     | none => 0)
  failed_targets := m.failed_targets +
    (match e.completed with
     | some s => if s then 0 else 1
     | none => 0)
  total_time_ms :=
    match e.finished with
    | some f =>
      match f.finishTimeMillis, f.startTimeMillis with
      | some ft, some st => ft - st
      | _, _ => m.total_time_ms
    | none => m.total_time_ms
  action_count := m.action_count + (match e.action with | some _ => 1 | none => 0)
  cache_hits := m.cache_hits +
    (match e.action with
     | some a => if a.type == some "CACHE_HIT" then 1 else 0
     | none => 0)
  remote_cache_hits := m.remote_cache_hits +
    (match e.action with
     | some a => if (a.primaryOutputUri.getD "").startsWith "remote://" then 1 else 0
     | none => 0)

/-- The all-zero initial state of `extract_metrics`. -/
def zeroMetrics : BuildMetrics :=
  { total_targets := 0, successful_targets := 0, failed_targets := 0,
    total_time_ms := 0, action_count := 0, cache_hits := 0, remote_cache_hits := 0 }

/-- `BEPAnalyzer.extract_metrics`: a left fold of `stepMetrics` over the
event stream starting from all-zero counters. -/
def extract_metrics (events : List Event) : BuildMetrics :=
  events.foldl stepMetrics zeroMetrics

/-- Number of events carrying the `configured` key. -/
def countConfigured (events : List Event) : Nat :=
  events.countP (fun e => e.configured)

/-- Number of events carrying the `completed` key. -/
def countCompleted (events : List Event) : Nat :=
  events.countP (fun e => e.completed.isSome)

/-- One line of a BEP file as `BEPAnalyzer._load_events` sees it: blank
after stripping, valid JSON parsing to an event, or malformed JSON (on
which `json.loads` raises). -/
inductive Line where
  | blank : Line
  | valid : Event → Line
  | malformed : Line
  deriving Repr, DecidableEq

/-- `BEPAnalyzer._load_events`: skips blank lines, appends each parsed
event in order, and raises (returns `Except.error`) on a malformed line.
The exception aborts the whole load, so the result is all-or-nothing. -/
def load_events : List Line → Except Unit (List Event)
  | [] => .ok []
  | Line.blank :: ls => load_events ls
  | Line.malformed :: _ => .error ()
  | Line.valid e :: ls => (load_events ls).map (fun es => e :: es)

/-- The failed-target label contributed by one event in
`BEPAnalyzer.get_failed_targets`: events that are `aborted` or `completed`
without success, and that carry `id.targetCompleted`, contribute their
non-empty label. -/
def failedLabel (e : Event) : Option String :=
  if e.aborted || (match e.completed with | some s => !s | none => false) then
    match e.idTargetCompleted with
    | some (some l) => if l = "" then none else some l
    | _ => none
  else none

/-- `BEPAnalyzer.get_failed_targets` over an event stream. -/
def get_failed_targets (events : List Event) : List String :=
  events.filterMap failedLabel

/-- One entry of `BEPAnalyzer.get_slow_actions`: mnemonic (the action's
`type`), duration and owning target label, with the literal "Unknown"
defaults of the code. -/
structure SlowAction where
  mnemonic : String
  duration_ms : Int
  target : String
  deriving Repr, DecidableEq

/-- The slow-action entry contributed by one event: an `action` event
carrying `actionMetrics` whose duration (`executionTimeInMs`, default 0)
strictly exceeds the threshold. -/
def slowEntry (threshold_ms : Int) (e : Event) : Option SlowAction :=
  match e.action with
  | none => none
  | some a =>
    match a.actionMetrics with
    | none => none
    | some ms =>
      let duration := ms.executionTimeInMs.getD 0
      if duration > threshold_ms then
        some { mnemonic := a.type.getD "Unknown",
               duration_ms := duration,
               target := a.label.getD "Unknown" }
      else none

/-- Stable descending insertion: `a` is placed before the first element
whose duration does not strictly exceed `a`'s, so elements already in the
list with the same duration stay in front of later-inserted ones. -/
def insertDesc (a : SlowAction) : List SlowAction → List SlowAction
  | [] => [a]
  | b :: l => if a.duration_ms < b.duration_ms then b :: insertDesc a l else a :: b :: l

/-- Stable sort by descending `duration_ms`, the semantics of Python's
`sorted(slow_actions, key=lambda x: x['duration_ms'], reverse=True)`
(Python's sort is stable and `reverse=True` preserves stability). -/
def sortDescByDuration : List SlowAction → List SlowAction
  | [] => []
  | a :: l => insertDesc a (sortDescByDuration l)

/-- `BEPAnalyzer.get_slow_actions`: collect the above entries in stream
order, then sort them descending by duration. -/
def get_slow_actions (events : List Event) (threshold_ms : Int) : List SlowAction :=
  sortDescByDuration (events.filterMap (slowEntry threshold_ms))

/-- Inner loop of `DependencyAnalyzer.find_affected_targets`: for each
owner, query its one-hop reverse dependencies and add them to the set.
A failing query raises `subprocess.CalledProcessError`, which the
per-file `except` catches: accumulation stops for this file but the set
built so far (the owners included) is kept. -/
def updateRdeps (rdepsOf : String → Except Unit (List String)) :
    Finset String → List String → Finset String
  | acc, [] => acc
  | acc, o :: os =>
    match rdepsOf o with
    | .error _ => acc
    | .ok rs => updateRdeps rdepsOf (acc ∪ rs.toFinset) os

/-- The body of the per-file loop of
`DependencyAnalyzer.find_affected_targets`: look up the owners of one
changed file (a failing lookup is caught and the file skipped), add them
to the affected set, then process their reverse dependencies. Owners are
added before any reverse-dependency query runs. -/
def processFile (ownersOf rdepsOf : String → Except Unit (List String))
    (acc : Finset String) (f : String) : Finset String :=
  match ownersOf f with
  | .error _ => acc
  | .ok os => updateRdeps rdepsOf (acc ∪ os.toFinset) os

/-- `DependencyAnalyzer.find_affected_targets`, with the external Bazel
query engine abstracted as two oracles: `ownersOf` for
`BazelQuery.query('owner("<file>")')` and `rdepsOf` for
`BazelQuery.rdeps("//...", owner, 1)`; `Except.error` models a
`CalledProcessError`. -/
def find_affected_targets (ownersOf rdepsOf : String → Except Unit (List String))
    (changed_files : List String) : Finset String :=
  changed_files.foldl (processFile ownersOf rdepsOf) ∅

/-- Python's substring test `sub in s`, computed on character lists: some
tail of `s` starts with `sub`. -/
def pyInStr (sub s : String) : Bool :=
  s.toList.tails.any (fun tl => decide (tl.take sub.toList.length = sub.toList))

/-- Python's `s.endswith(sub)`, computed on character lists: the last
`sub.length` characters of `s` are `sub`. -/
def pyEndsWith (sub s : String) : Bool :=
  decide (s.toList.drop (s.toList.length - sub.toList.length) = sub.toList)

/-- The test-label check of `DependencyAnalyzer.find_test_targets`:
`'_test' in target or target.endswith('_tests')`. -/
def isTestLabel (target : String) : Bool :=
  pyInStr "_test" target || pyEndsWith "_tests" target

/-- `DependencyAnalyzer.find_test_targets`: keep exactly the labels
passing `isTestLabel`. -/
def find_test_targets (targets : Finset String) : Finset String :=
  targets.filter (fun t => isTestLabel t)

/-- A sample event whose only populated key is `configured`. -/
def configuredEvent : Event :=
  { configured := true, completed := none, action := none, finished := none,
    aborted := false, idTargetCompleted := none }

/-- A sample event whose only populated key is `completed`, with
`success: true`. -/
def completedTrueEvent : Event :=
  { configured := false, completed := some true, action := none, finished := none,
    aborted := false, idTargetCompleted := none }

/-- A sample `finished` event carrying `finishTimeMillis: 5000` and no
`startTimeMillis`. -/
def finishOnlyEvent : Event :=
  { configured := false, completed := none, action := none,
    finished := some { finishTimeMillis := some 5000, startTimeMillis := none },
    aborted := false, idTargetCompleted := none }

/-- Concrete owner oracle for the C3 witness: file `a.py` is owned by
target `//pkg:A`; every other lookup fails. -/
def wOwners : String → Except Unit (List String) :=
  fun f => if f = "a.py" then .ok ["//pkg:A"] else .error ()

/-- Concrete reverse-dependency oracle for the C3 witness: every query
fails, exercising the claim's "even when a later reverse-dependency query
fails" clause. -/
def wRdeps : String → Except Unit (List String) :=
  fun _ => .error ()

/-! Characterisation of the `extract_metrics` fold, one counter at a
time. -/

theorem foldl_total_targets (es : List Event) (m : BuildMetrics) :
    (es.foldl stepMetrics m).total_targets = m.total_targets + countConfigured es := by
  induction es generalizing m with
  | nil => simp [countConfigured]
  | cons e es ih =>
    rw [List.foldl_cons, ih]
    simp only [countConfigured, List.countP_cons]
    show m.total_targets + (if e.configured then 1 else 0) + _ = _
    cases e.configured <;> simp
    omega

theorem foldl_succ_add_failed (es : List Event) (m : BuildMetrics) :
    (es.foldl stepMetrics m).successful_targets + (es.foldl stepMetrics m).failed_targets
      = m.successful_targets + m.failed_targets + countCompleted es := by
  induction es generalizing m with
  | nil => simp [countCompleted]
  | cons e es ih =>
    rw [List.foldl_cons, ih]
    simp only [countCompleted, List.countP_cons]
    rcases h : e.completed with _ | s
    · simp [stepMetrics, h]
    · cases s <;> simp [stepMetrics, h] <;> omega

theorem stepMetrics_cache_bounds (m : BuildMetrics) (e : Event)
    (h1 : m.cache_hits ≤ m.action_count)
    (h2 : m.remote_cache_hits ≤ m.action_count) :
    (stepMetrics m e).cache_hits ≤ (stepMetrics m e).action_count ∧
      (stepMetrics m e).remote_cache_hits ≤ (stepMetrics m e).action_count := by
  rcases h : e.action with _ | a <;> simp [stepMetrics, h]
  · exact ⟨h1, h2⟩
  · constructor <;> split <;> omega

theorem foldl_cache_bounds (es : List Event) (m : BuildMetrics)
    (h1 : m.cache_hits ≤ m.action_count)
    (h2 : m.remote_cache_hits ≤ m.action_count) :
    (es.foldl stepMetrics m).cache_hits ≤ (es.foldl stepMetrics m).action_count ∧
      (es.foldl stepMetrics m).remote_cache_hits ≤ (es.foldl stepMetrics m).action_count := by
  induction es generalizing m with
  | nil => exact ⟨h1, h2⟩
  | cons e es ih =>
    rw [List.foldl_cons]
    obtain ⟨g1, g2⟩ := stepMetrics_cache_bounds m e h1 h2
    exact ih _ g1 g2

/-- C8: `extract_metrics` applied to the empty event stream returns a
`BuildMetrics` record with every field equal to zero. -/
theorem extract_metrics_nil_all_zero :
    extract_metrics [] =
      { total_targets := 0, successful_targets := 0, failed_targets := 0,
        total_time_ms := 0, action_count := 0, cache_hits := 0,
        remote_cache_hits := 0 } := rfl

/-- C9: for every event stream, `extract_metrics` returns
`cache_hits ≤ action_count` and `remote_cache_hits ≤ action_count`: both
cache counters are incremented only inside the branch that increments
`action_count`. -/
theorem extract_metrics_cache_le_action (events : List Event) :
    (extract_metrics events).cache_hits ≤ (extract_metrics events).action_count ∧
      (extract_metrics events).remote_cache_hits ≤ (extract_metrics events).action_count :=
  foldl_cache_bounds events zeroMetrics (by simp [zeroMetrics]) (by simp [zeroMetrics])

/-- C1 counterexample: a stream consisting of a single
`completed{success:true}` event (and no `configured` event) yields
`successful_targets + failed_targets = 1 > 0 = total_targets`, so the
claimed invariant fails on this event stream. -/
theorem extract_metrics_inequality_cex :
    ¬ ((extract_metrics [completedTrueEvent]).successful_targets +
        (extract_metrics [completedTrueEvent]).failed_targets ≤
        (extract_metrics [completedTrueEvent]).total_targets) := by decide

/-- C1 (amended): `successful_targets + failed_targets` equals the number
of `completed` events and `total_targets` the number of `configured`
events, so the invariant `successful_targets + failed_targets ≤
total_targets` holds for every event stream with at most as many
`completed` events as `configured` events. -/
theorem extract_metrics_success_failed_le_total (events : List Event)
    (h : countCompleted events ≤ countConfigured events) :
    (extract_metrics events).successful_targets + (extract_metrics events).failed_targets
      ≤ (extract_metrics events).total_targets := by
  have h1 := foldl_succ_add_failed events zeroMetrics
  have h2 := foldl_total_targets events zeroMetrics
  show (events.foldl stepMetrics zeroMetrics).successful_targets +
      (events.foldl stepMetrics zeroMetrics).failed_targets ≤
      (events.foldl stepMetrics zeroMetrics).total_targets
  simp only [zeroMetrics] at h1 h2 ⊢
  omega

/-- Witness for C1 (amended) at a concrete stream with one `configured`
and one `completed` event. -/
theorem extract_metrics_success_failed_le_total_witness :
    countCompleted [configuredEvent, completedTrueEvent] ≤
        countConfigured [configuredEvent, completedTrueEvent] ∧
      (extract_metrics [configuredEvent, completedTrueEvent]).successful_targets +
          (extract_metrics [configuredEvent, completedTrueEvent]).failed_targets ≤
        (extract_metrics [configuredEvent, completedTrueEvent]).total_targets :=
  ⟨by decide, extract_metrics_success_failed_le_total _ (by decide)⟩

/-- C5: on the stream whose single event is
`finished{finishTimeMillis: 5000}` with no `startTimeMillis`, the code
leaves `total_time_ms` at 0 instead of the claimed 5000: the guard on
line 128 requires both timestamp keys, so the `.get('startTimeMillis', 0)`
default on line 129 is unreachable. -/
theorem extract_metrics_finish_only_ignored :
    (extract_metrics [finishOnlyEvent]).total_time_ms = 0 ∧
      (extract_metrics [finishOnlyEvent]).total_time_ms ≠ 5000 := by decide

/-- C2 counterexample: on a source whose first line is malformed JSON,
`_load_events` raises (`json.loads` propagates), so loading fails and the
valid line after it is never processed: the claim "loading does not fail
and subsequent lines are still processed" is false for this source. -/
theorem load_events_malformed_cex :
    load_events [Line.malformed, Line.valid configuredEvent] = Except.error () := rfl

/-- C2 (amended): loading fails exactly when some line of the source is
malformed; the `json.loads` exception aborts the whole load, so no view
is ever computed over a stream containing a malformed line, and only
fully well-formed sources are processed. -/
theorem load_events_error_iff (lines : List Line) :
    load_events lines = Except.error () ↔ Line.malformed ∈ lines := by
  induction lines with
  | nil => simp [load_events]
  | cons l ls ih =>
    cases l with
    | blank => simpa [load_events] using ih
    | malformed => simp [load_events]
    | valid e =>
      simp only [load_events, List.mem_cons]
      cases h : load_events ls with
      | error u =>
        cases u
        simp [Except.map, h, ih.1 h]
      | ok es =>
        have : Line.malformed ∉ ls := fun hm => by
          have := ih.2 hm
          rw [h] at this
          cases this
        simp [Except.map, this]

/-! Lemmas about the stable descending sort used by `get_slow_actions`. -/

theorem mem_insertDesc {x a : SlowAction} {l : List SlowAction} :
    x ∈ insertDesc a l ↔ x = a ∨ x ∈ l := by
  induction l with
  | nil => simp [insertDesc]
  | cons b l ih =>
    by_cases h : a.duration_ms < b.duration_ms
    · simp only [insertDesc, if_pos h, List.mem_cons, ih]
      tauto
    · simp only [insertDesc, if_neg h, List.mem_cons]

theorem pairwise_insertDesc {a : SlowAction} {l : List SlowAction}
    (h : l.Pairwise (fun x y => y.duration_ms ≤ x.duration_ms)) :
    (insertDesc a l).Pairwise (fun x y => y.duration_ms ≤ x.duration_ms) := by
  induction l with
  | nil => simp [insertDesc]
  | cons b l ih =>
    rw [List.pairwise_cons] at h
    obtain ⟨hb, hl⟩ := h
    by_cases hab : a.duration_ms < b.duration_ms
    · simp only [insertDesc, if_pos hab]
      rw [List.pairwise_cons]
      refine ⟨?_, ih hl⟩
      intro x hx
      rcases mem_insertDesc.1 hx with rfl | hx
      · exact le_of_lt hab
      · exact hb x hx
    · simp only [insertDesc, if_neg hab]
      push_neg at hab
      rw [List.pairwise_cons]
      refine ⟨?_, List.pairwise_cons.2 ⟨hb, hl⟩⟩
      intro x hx
      rcases List.mem_cons.1 hx with rfl | hx
      · exact hab
      · exact le_trans (hb x hx) hab

theorem pairwise_sortDescByDuration (l : List SlowAction) :
    (sortDescByDuration l).Pairwise (fun x y => y.duration_ms ≤ x.duration_ms) := by
  induction l with
  | nil => simp [sortDescByDuration]
  | cons a l ih =>
    show (insertDesc a (sortDescByDuration l)).Pairwise _
    exact pairwise_insertDesc ih

theorem mem_sortDescByDuration {x : SlowAction} {l : List SlowAction} :
    x ∈ sortDescByDuration l ↔ x ∈ l := by
  induction l with
  | nil => simp [sortDescByDuration]
  | cons a l ih =>
    show x ∈ insertDesc a (sortDescByDuration l) ↔ _
    rw [mem_insertDesc, ih, List.mem_cons]

theorem filter_insertDesc (d : Int) (a : SlowAction) (l : List SlowAction) :
    (insertDesc a l).filter (fun x => decide (x.duration_ms = d)) =
      if a.duration_ms = d then a :: l.filter (fun x => decide (x.duration_ms = d))
      else l.filter (fun x => decide (x.duration_ms = d)) := by
  induction l with
  | nil => by_cases h : a.duration_ms = d <;> simp [insertDesc, h]
  | cons b l ih =>
    by_cases hab : a.duration_ms < b.duration_ms
    · simp only [insertDesc, if_pos hab, List.filter_cons]
      by_cases hbd : b.duration_ms = d
      · have had : ¬ a.duration_ms = d := by omega
        simp [hbd, had, ih]
      · simp [hbd, ih]
    · simp only [insertDesc, if_neg hab, List.filter_cons]
      by_cases had : a.duration_ms = d <;> by_cases hbd : b.duration_ms = d <;>
        simp [had, hbd]

theorem filter_sortDescByDuration (d : Int) (l : List SlowAction) :
    (sortDescByDuration l).filter (fun x => decide (x.duration_ms = d)) =
      l.filter (fun x => decide (x.duration_ms = d)) := by
  induction l with
  | nil => rfl
  | cons a l ih =>
    show (insertDesc a (sortDescByDuration l)).filter _ = _
    rw [filter_insertDesc, List.filter_cons]
    by_cases had : a.duration_ms = d <;> simp [had, ih]

theorem slowEntry_duration {t : Int} {e : Event} {x : SlowAction}
    (h : slowEntry t e = some x) : t < x.duration_ms := by
  simp only [slowEntry] at h
  split at h
  · exact absurd h (by simp)
  · split at h
    · exact absurd h (by simp)
    · split at h
      · obtain rfl := (Option.some.inj h).symm
        dsimp only
        omega
      · exact absurd h (by simp)

/-- C4: for every event stream and threshold `t`, `get_slow_actions`
returns a list sorted non-increasing by `duration_ms`, every returned
entry has `duration_ms` strictly greater than `t`, and for each duration
value the entries with that duration appear exactly as in stream order
(stability of the descending sort). -/
theorem get_slow_actions_spec (events : List Event) (t : Int) :
    ((get_slow_actions events t).Pairwise (fun x y => y.duration_ms ≤ x.duration_ms)) ∧
      (∀ x ∈ get_slow_actions events t, t < x.duration_ms) ∧
      (∀ d : Int, (get_slow_actions events t).filter (fun x => decide (x.duration_ms = d)) =
        (events.filterMap (slowEntry t)).filter (fun x => decide (x.duration_ms = d))) := by
  refine ⟨pairwise_sortDescByDuration _, ?_, fun d => filter_sortDescByDuration d _⟩
  intro x hx
  obtain ⟨e, _, he⟩ := List.mem_filterMap.1 (mem_sortDescByDuration.1 hx)
  exact slowEntry_duration he

/-! Lemmas about `find_affected_targets`: the affected set only grows,
and the owners of a file are added before its reverse-dependency loop. -/

theorem subset_updateRdeps (rdepsOf : String → Except Unit (List String))
    (acc : Finset String) (os : List String) : acc ⊆ updateRdeps rdepsOf acc os := by
  induction os generalizing acc with
  | nil => simp [updateRdeps]
  | cons o os ih =>
    show acc ⊆ updateRdeps rdepsOf acc (o :: os)
    rcases h : rdepsOf o with u | rs
    · simp [updateRdeps, h]
    · calc acc ⊆ acc ∪ rs.toFinset := Finset.subset_union_left
        _ ⊆ updateRdeps rdepsOf (acc ∪ rs.toFinset) os := ih _
        _ = updateRdeps rdepsOf acc (o :: os) := by rw [updateRdeps, h]

theorem subset_processFile (ownersOf rdepsOf : String → Except Unit (List String))
    (acc : Finset String) (f : String) : acc ⊆ processFile ownersOf rdepsOf acc f := by
  unfold processFile
  rcases h : ownersOf f with u | os
  · exact Finset.Subset.refl acc
  · exact Finset.Subset.trans Finset.subset_union_left (subset_updateRdeps _ _ _)

theorem subset_foldl_processFile (ownersOf rdepsOf : String → Except Unit (List String))
    (fs : List String) (acc : Finset String) :
    acc ⊆ fs.foldl (processFile ownersOf rdepsOf) acc := by
  induction fs generalizing acc with
  | nil => exact Finset.Subset.refl acc
  | cons f fs ih =>
    rw [List.foldl_cons]
    exact Finset.Subset.trans (subset_processFile _ _ _ _) (ih _)

theorem owners_subset_processFile (ownersOf rdepsOf : String → Except Unit (List String))
    (acc : Finset String) (f : String) (os : List String) (h : ownersOf f = Except.ok os) :
    os.toFinset ⊆ processFile ownersOf rdepsOf acc f := by
  unfold processFile
  rw [h]
  exact Finset.Subset.trans Finset.subset_union_right (subset_updateRdeps _ _ _)

theorem mem_foldl_processFile (ownersOf rdepsOf : String → Except Unit (List String))
    (t f : String) (os : List String) (hok : ownersOf f = Except.ok os) (ht : t ∈ os) :
    ∀ fs : List String, f ∈ fs →
      ∀ acc : Finset String, t ∈ fs.foldl (processFile ownersOf rdepsOf) acc := by
  intro fs
  induction fs with
  | nil => intro hf; cases hf
  | cons g gs ih =>
    intro hf acc
    rw [List.foldl_cons]
    rcases List.mem_cons.1 hf with rfl | hf'
    · exact subset_foldl_processFile _ _ gs _
        (owners_subset_processFile _ _ acc _ _ hok (List.mem_toFinset.2 ht))
    · exact ih hf' _

/-- C3: for every pair of query oracles and every changed-file list, the
set returned by `find_affected_targets` contains every owner of every
changed file whose owner lookup succeeds — even when reverse-dependency
queries fail, because owners are added to the set before the
reverse-dependency loop runs and the per-file `except` keeps the set
built so far. -/
theorem find_affected_targets_superset
    (ownersOf rdepsOf : String → Except Unit (List String))
    (changed_files : List String) (f : String) (os : List String)
    (hf : f ∈ changed_files) (hok : ownersOf f = Except.ok os) :
    ∀ t ∈ os, t ∈ find_affected_targets ownersOf rdepsOf changed_files := by
  intro t ht
  exact mem_foldl_processFile ownersOf rdepsOf t f os hok ht changed_files hf ∅

/-- Witness for C3: the file `a.py` is owned by `//pkg:A`, and although
every reverse-dependency query fails, `//pkg:A` is in the affected set. -/
theorem find_affected_targets_superset_witness :
    ("a.py" ∈ ["a.py"]) ∧ (wOwners "a.py" = Except.ok ["//pkg:A"]) ∧
      ∀ t ∈ ["//pkg:A"], t ∈ find_affected_targets wOwners wRdeps ["a.py"] :=
  ⟨by simp, rfl,
    find_affected_targets_superset wOwners wRdeps ["a.py"] "a.py" ["//pkg:A"]
      (by simp) rfl⟩

/-! The Python substring and suffix checks agree with the mathematical
infix and suffix predicates on character lists. -/

theorem pyInStr_iff (sub s : String) :
    pyInStr sub s = true ↔ sub.toList <:+: s.toList := by
  unfold pyInStr
  rw [List.any_eq_true, List.infix_iff_prefix_suffix]
  constructor
  · rintro ⟨tl, htl, hp⟩
    refine ⟨tl, List.prefix_iff_eq_take.2 ?_, (List.mem_tails _ _).1 htl⟩
    exact (of_decide_eq_true hp).symm
  · rintro ⟨tl, hpre, hsuf⟩
    refine ⟨tl, (List.mem_tails _ _).2 hsuf, ?_⟩
    exact decide_eq_true (List.prefix_iff_eq_take.1 hpre).symm

theorem pyEndsWith_iff (sub s : String) :
    pyEndsWith sub s = true ↔ sub.toList <:+ s.toList := by
  unfold pyEndsWith
  rw [decide_eq_true_eq, List.suffix_iff_eq_drop]
  exact eq_comm

/-- C6: for every set of labels `S` and every `x ∈ S`, `x` is kept by
`find_test_targets` iff `x` contains the substring `_test` or ends with
the suffix `_tests`. -/
theorem mem_find_test_targets_iff (S : Finset String) (x : String) (hx : x ∈ S) :
    x ∈ find_test_targets S ↔
      ("_test".toList <:+: x.toList ∨ "_tests".toList <:+ x.toList) := by
  unfold find_test_targets
  rw [Finset.mem_filter]
  simp only [hx, true_and]
  unfold isTestLabel
  rw [Bool.or_eq_true, pyInStr_iff, pyEndsWith_iff]

/-- Witness for C6 at the singleton set holding a label that ends in
`_tests`. -/
theorem mem_find_test_targets_iff_witness :
    ("//pkg:foo_tests" ∈ ({"//pkg:foo_tests"} : Finset String)) ∧
      (("//pkg:foo_tests" ∈ find_test_targets {"//pkg:foo_tests"}) ↔
        ("_test".toList <:+: "//pkg:foo_tests".toList ∨
          "_tests".toList <:+ "//pkg:foo_tests".toList)) :=
  ⟨by simp, mem_find_test_targets_iff {"//pkg:foo_tests"} "//pkg:foo_tests" (by simp)⟩

/-- C7: `find_test_targets` is idempotent. -/
theorem find_test_targets_idem (S : Finset String) :
    find_test_targets (find_test_targets S) = find_test_targets S := by
  ext x
  simp only [find_test_targets, Finset.mem_filter]
  tauto

/-- C10: `find_test_targets` returns a subset of its input set: the
filter never invents labels. -/
theorem find_test_targets_subset (S : Finset String) : find_test_targets S ⊆ S :=
  Finset.filter_subset _ S

end BazelUtils
